import Mathlib

/-!
Verification of the SSE stream-to-transcript interpreter of
`frontend/app/simple-chat.tsx` (the `handleSubmit` streaming loop).

Strings are modelled as `List Char`, so every operation of the source
(`split`, `startsWith`, `slice`, `trim`, `includes`, the tool-call regex
match) is an executable Lean function amenable to induction and to `decide`
on concrete inputs.

The JSON decoder (`JSON.parse` plus the `parsed.choices?.[0]?.delta?.content`
projection) is a JavaScript builtin, i.e. part of the environment rather than
of this repository; following the interface description it is modelled as an
arbitrary parameter `decode : Str → Option Str` returning the delta-content
string when the payload parses and carries one, and `none` otherwise
(parse failure and missing field both take the no-action path in the source).

Timestamps (`new Date()`) are wall-clock values with no bearing on any of the
properties below; the embedded `Message`/`ToolCall` records omit them.
-/

namespace SimpleChat

/-- Strings as explicit character lists. -/
abbrev Str := List Char

/-- The characters removed by JavaScript `String.prototype.trim`
(ASCII whitespace; the source only ever meets spaces and newlines). -/
def isWs (c : Char) : Bool :=
  c == ' ' || c == '\t' || c == '\n' || c == '\r' || c == '\x0b' || c == '\x0c'

/-- Left part of JS `trim`. -/
def ltrim (s : Str) : Str := s.dropWhile isWs

/-- Right part of JS `trim`. -/
def rtrim (s : Str) : Str := (s.reverse.dropWhile isWs).reverse

/-- JS `s.trim()`. -/
def trim (s : Str) : Str := rtrim (ltrim s)

/-- `chunk.split('\n')` of line 93 of the source: JavaScript
`String.prototype.split` with separator `"\n"`.  `"".split('\n') = [""]`,
`"a\n".split('\n') = ["a", ""]`. -/
def splitNl : Str → List Str
  | [] => [[]]
  | c :: cs =>
    if c = '\n' then [] :: splitNl cs
    else
      match splitNl cs with
      | [] => [[c]]
      | p :: ps => (c :: p) :: ps

/-- JS `content.includes(needle)` (line 109 uses needle `"[Calling tool:"`). -/
def containsSub (needle : Str) : Str → Bool
  | [] => needle.isPrefixOf []
  | c :: cs => needle.isPrefixOf (c :: cs) || containsSub needle cs

/-- The substring tested by `content.includes('[Calling tool:')` (line 109). -/
def toolNeedle : Str := "[Calling tool:".data

/-- The literal part of the regex `/\[Calling tool: ([^\]]+)\]/` (line 113). -/
def toolPat : Str := "[Calling tool: ".data

/-- One attempt of the regex `/\[Calling tool: ([^\]]+)\]/` anchored at the
start of `s`: the literal `"[Calling tool: "`, then one or more characters
other than `']'` (the capture group), then `']'`. -/
def matchAt (s : Str) : Option Str :=
  if toolPat.isPrefixOf s then
    let rest := s.drop toolPat.length
    let grp := rest.takeWhile (fun c => c != ']')
    if grp = [] ∨ grp.length = rest.length then none else some grp
  else none

/-- `content.match(/\[Calling tool: ([^\]]+)\]/)` (line 113): the leftmost
position at which the pattern matches, returning the capture group. -/
def matchToolCall : Str → Option Str
  | [] => none
  | c :: cs =>
    match matchAt (c :: cs) with
    | some grp => some grp
    | none => matchToolCall cs

/-- The separator `" - "` of `toolCallText.split(' - ')` (line 116). -/
def sepDash : Str := " - ".data

/-- JS `s.split(' - ')` (line 116): non-overlapping leftmost occurrences of
the three-character separator `" - "` (spelled out as character patterns to
keep the recursion structural). -/
def splitDash : Str → List Str
  | [] => [[]]
  | ' ' :: '-' :: ' ' :: rest => [] :: splitDash rest
  | c :: cs =>
    match splitDash cs with
    | [] => [[c]]
    | p :: ps => (c :: p) :: ps

/-- JS `parts.join(' - ')` (line 117). -/
def joinDash : List Str → Str
  | [] => []
  | [s] => s
  | s :: rest => s ++ sepDash ++ joinDash rest

/-- Lines 116-117 of the source:
`const [toolName, ...descParts] = toolCallText.split(' - ');`
`const toolDescription = descParts.join(' - ') || 'Running...';`
(`||` falls through on the empty string). -/
def extractTool (grp : Str) : Str × Str :=
  match splitDash grp with
  | [] => ([], "Running...".data)
  | name :: descParts =>
    let d := joinDash descParts
    (name, if d = [] then "Running...".data else d)

/-- Split at the first occurrence of `sep`, when there is one, into the text
before and the text after.  Used to state what "split on the first
occurrence" means independently of the split/join route the source takes. -/
def splitFirstSep (sep : Str) : Str → Option (Str × Str)
  | [] => none
  | c :: cs =>
    if sep.isPrefixOf (c :: cs) then some ([], (c :: cs).drop sep.length)
    else (splitFirstSep sep cs).map (fun p => (c :: p.1, p.2))

/-! ## Data model (lines 5-16 of the source, timestamps omitted) -/

inductive Role
  | user
  | assistant
  | system
deriving DecidableEq, Repr

structure ToolCall where
  name : Str
  description : Str
deriving DecidableEq, Repr

/-- `toolCalls` is optional in the source (`toolCalls?: ToolCall[]`): the
user and system messages are created without the field. -/
structure Message where
  role : Role
  content : Str
  toolCalls : Option (List ToolCall)
deriving DecidableEq, Repr

/-- The mutable state of one streaming run: the React `messages` array, the
`assistantMessage` accumulator (line 77) and the `hasSeenToolCalls` flag
(line 78).  The spec calls the latter two `accumulatedAssistantText` and
`awaitingNewSegment`. -/
structure StreamState where
  messages : List Message
  assistantMessage : Str
  hasSeenToolCalls : Bool
deriving DecidableEq, Repr

/-! ## The interpreter -/

/-- The in-place mutation `newMessages[newMessages.length - 1] = ...`
performed inside the `setMessages` callbacks: apply `f` to the last element
of the list, if any. -/
def updateLast (f : Message → Message) : List Message → List Message
  | [] => []
  | [m] => [f m]
  | m :: m' :: rest => m :: updateLast f (m' :: rest)

/-- The dedup key of lines 130-132: `` `${name} - ${description}` ``. -/
def joinNameDesc (n d : Str) : Str := n ++ sepDash ++ d

/-- The body of the `setMessages` callback of lines 121-144, acting on the
last message: when it is the assistant message, materialise `toolCalls`
(line 125-127), and push the trimmed ToolCall unless an entry with the same
`name - description` join is already present (lines 129-141). -/
def pushFun (n d : Str) (m : Message) : Message :=
  if m.role = Role.assistant then
    let tcs := m.toolCalls.getD []
    let key := joinNameDesc (trim n) (trim d)
    if ∃ call ∈ tcs, joinNameDesc call.name call.description = key then
      { m with toolCalls := some tcs }
    else
      { m with toolCalls := some (tcs ++ [⟨trim n, trim d⟩]) }
  else m

/-- Lines 121-144: the dedup-guarded push applied to the transcript's last
message. -/
def pushToolCall (n d : Str) (ms : List Message) : List Message :=
  updateLast (pushFun n d) ms

/-- Lines 108-175: handle one non-empty delta content chunk. -/
def stepContent (s : StreamState) (content : Str) : StreamState :=
  if containsSub toolNeedle content then
    -- line 111: hasSeenToolCalls = true, before the regex match
    let s1 : StreamState := { s with hasSeenToolCalls := true }
    match matchToolCall content with
    | some grp =>
      let nd := extractTool grp
      { s1 with messages := pushToolCall nd.1 nd.2 s1.messages }
    | none => s1
  else
    if s.hasSeenToolCalls = true ∧ ¬ trim content = [] then
      -- lines 152-162: segment break, brand-new assistant message
      { messages := s.messages ++
          [{ role := Role.assistant, content := content, toolCalls := some [] }],
        assistantMessage := content,
        hasSeenToolCalls := false }
    else
      -- lines 163-174: accumulate and overwrite the last message's content
      { messages := updateLast
          (fun m => if m.role = Role.assistant then
              { m with content := s.assistantMessage ++ content }
            else m) s.messages,
        assistantMessage := s.assistantMessage ++ content,
        hasSeenToolCalls := s.hasSeenToolCalls }

/-- `"data: "` (line 96); its length 6 is the `slice(6)` of line 97. -/
def dataMarker : Str := "data: ".data

/-- The sentinel payload `"[DONE]"` (line 98). -/
def doneMarker : Str := "[DONE]".data

/-- Lines 95-180: handle one line.  Non-`data: ` lines are ignored; the
`[DONE]` sentinel is `continue`d over; a decoded non-empty content string is
handed to `stepContent` (JS truthiness: the empty string is skipped); a
payload on which the decoder yields nothing (parse failure, caught at lines
177-179, or missing/non-string field, line 102) changes nothing. -/
def processLine (decode : Str → Option Str) (s : StreamState) (line : Str) :
    StreamState :=
  if dataMarker.isPrefixOf line then
    let payload := line.drop 6
    if payload = doneMarker then s
    else
      match decode payload with
      | some content => if content = [] then s else stepContent s content
      | none => s
  else s

/-- The inner `for (const line of lines)` loop. -/
def processLines (decode : Str → Option Str) (s : StreamState)
    (lines : List Str) : StreamState :=
  lines.foldl (processLine decode) s

/-- Lines 92-93 + the inner loop: one chunk is split on `'\n'` (with no
carry-over of partial lines between chunks) and its lines are processed. -/
def processChunk (decode : Str → Option Str) (s : StreamState) (chunk : Str) :
    StreamState :=
  processLines decode s (splitNl chunk)

/-- The outer `while (true)` read loop over the transport's chunks. -/
def processChunks (decode : Str → Option Str) (s : StreamState)
    (chunks : List Str) : StreamState :=
  chunks.foldl (processChunk decode) s

/-- Lines 77-86: the state at the start of a stream, `base` being the
transcript so far (user message included); the empty assistant shell with
`toolCalls: []` is appended the instant the reader is obtained. -/
def initialState (base : List Message) : StreamState :=
  { messages := base ++ [{ role := Role.assistant, content := [], toolCalls := some [] }],
    assistantMessage := [],
    hasSeenToolCalls := false }

/-- Outcome of the transport: a normal run of chunks, a non-success HTTP
status (line 71, thrown before the reader and the assistant shell exist), or
a mid-stream read failure after some chunks were already processed. -/
inductive TransportResult
  | success (chunks : List Str)
  | httpError (status : Str)
  | streamError (chunks : List Str) (errMsg : Str)

/-- Lines 186-190: the system-role error bubble `` `Error: ${message}` ``. -/
def errorMessage (e : Str) : Message :=
  { role := Role.system, content := "Error: ".data ++ e, toolCalls := none }

/-- Lines 54-193: the whole try/catch/finally of one submission, returning
the final `messages` array and the final `isStreaming` flag (always cleared
by the `finally` of lines 191-193). -/
def runStream (decode : Str → Option Str) (base : List Message) :
    TransportResult → List Message × Bool
  | .success chunks =>
      ((processChunks decode (initialState base) chunks).messages, false)
  | .httpError status =>
      (base ++ [errorMessage ("HTTP error! status: ".data ++ status)], false)
  | .streamError chunks e =>
      ((processChunks decode (initialState base) chunks).messages
        ++ [errorMessage e], false)

/-! ## Stated invariants -/

/-- The uniqueness property claimed of every Message: no two ToolCall entries
with an identical `(name, description)` pair under trimmed comparison. -/
def DistinctPairs (tcs : List ToolCall) : Prop :=
  tcs.Pairwise (fun a b =>
    (trim a.name, trim a.description) ≠ (trim b.name, trim b.description))

/-- The inductive invariant the interpreter actually maintains on a
`toolCalls` list: every stored name and description is already trimmed, and
the `name - description` join strings compared at lines 130-132 are pairwise
distinct. -/
def ToolCallsInv (tcs : List ToolCall) : Prop :=
  (∀ tc ∈ tcs, trim tc.name = tc.name ∧ trim tc.description = tc.description)
  ∧ tcs.Pairwise (fun a b =>
      joinNameDesc a.name a.description ≠ joinNameDesc b.name b.description)

/-- During a stream the last message is the in-progress assistant message and
its `content` equals the `assistantMessage` accumulator. -/
def LastOk (s : StreamState) : Prop :=
  ∃ m, s.messages.getLast? = some m ∧ m.role = Role.assistant
    ∧ m.content = s.assistantMessage

/-! ## Concrete instances of the environment-supplied JSON decoder, for the
closed-scenario theorems (`\x7b`/`\x7d` denote the JSON braces) -/

/-- A decoder for the three well-formed payloads of the spec's end-to-end
scenario; anything else fails to decode. -/
def sampleDecode : Str → Option Str := fun p =>
  if p = "\x7b\x22choices\x22:[\x7b\x22delta\x22:\x7b\x22content\x22:\x22Hello \x22\x7d\x7d]\x7d".data then
    some "Hello ".data
  else if p = "\x7b\x22choices\x22:[\x7b\x22delta\x22:\x7b\x22content\x22:\x22[Calling tool: Search - querying corpus]\x22\x7d\x7d]\x7d".data then
    some "[Calling tool: Search - querying corpus]".data
  else if p = "\x7b\x22choices\x22:[\x7b\x22delta\x22:\x7b\x22content\x22:\x22Result: X\x22\x7d\x7d]\x7d".data then
    some "Result: X".data
  else none

/-- The end-to-end scenario of spec §8: prose, a tool-call event, prose, then
the `[DONE]` sentinel, one SSE line per transport chunk. -/
def scenarioChunks : List Str :=
  [("data: \x7b\x22choices\x22:[\x7b\x22delta\x22:\x7b\x22content\x22:\x22Hello \x22\x7d\x7d]\x7d\n").data,
   ("data: \x7b\x22choices\x22:[\x7b\x22delta\x22:\x7b\x22content\x22:\x22[Calling tool: Search - querying corpus]\x22\x7d\x7d]\x7d\n").data,
   ("data: \x7b\x22choices\x22:[\x7b\x22delta\x22:\x7b\x22content\x22:\x22Result: X\x22\x7d\x7d]\x7d\n").data,
   "data: [DONE]\n".data]

/-- A one-payload decoder: the payload `"x"` carries delta content
`"Hello"`; everything else fails to decode. -/
def tinyDecode : Str → Option Str := fun p =>
  if p = "x".data then some "Hello".data else none

/-! ## Concrete states and messages used by the closed witnesses -/

/-- The assistant shell appended at stream start (lines 81-86). -/
def emptyShell : Message := ⟨Role.assistant, [], some []⟩

/-- The first message the end-to-end scenario should produce. -/
def msgHello : Message :=
  ⟨Role.assistant, "Hello ".data, some [⟨"Search".data, "querying corpus".data⟩]⟩

/-- A mid-stream state with one partially accumulated assistant message. -/
def stHi : StreamState := ⟨[⟨Role.assistant, "hi".data, some []⟩], "hi".data, false⟩

/-- A state whose tool-call flag is set, awaiting a new segment. -/
def stAwaiting : StreamState := ⟨[], "a".data, true⟩

/-- The all-empty stream state. -/
def stEmpty : StreamState := ⟨[], [], false⟩

/-! ## Helper lemmas: updateLast and trim -/

theorem updateLast_spec (f : Message → Message) :
    ∀ ms : List Message,
      (ms = [] ∧ updateLast f ms = []) ∨
      (∃ init last, ms = init ++ [last] ∧ updateLast f ms = init ++ [f last]) := by
  intro ms
  induction ms with
  | nil => exact Or.inl ⟨rfl, rfl⟩
  | cons m rest ih =>
    cases rest with
    | nil => exact Or.inr ⟨[], m, rfl, rfl⟩
    | cons m' rest' =>
      rcases ih with ⟨h, _⟩ | ⟨init, last, hms, hup⟩
      · exact absurd h (by simp)
      · refine Or.inr ⟨m :: init, last, by simp [hms], ?_⟩
        simp [updateLast, hup]

theorem length_updateLast (f : Message → Message) (ms : List Message) :
    (updateLast f ms).length = ms.length := by
  rcases updateLast_spec f ms with ⟨h1, h2⟩ | ⟨init, last, h1, h2⟩ <;>
    subst h1 <;> simp [h2]

theorem map_updateLast {α : Type} (g : Message → α) (f : Message → Message)
    (hf : ∀ m, g (f m) = g m) (ms : List Message) :
    (updateLast f ms).map g = ms.map g := by
  rcases updateLast_spec f ms with ⟨h1, h2⟩ | ⟨init, last, h1, h2⟩ <;>
    subst h1 <;> simp [h2, hf]

theorem getLast?_updateLast (f : Message → Message) (ms : List Message) :
    (updateLast f ms).getLast? = ms.getLast?.map f := by
  rcases updateLast_spec f ms with ⟨h1, h2⟩ | ⟨init, last, h1, h2⟩ <;>
    subst h1 <;> simp [h2]

theorem mem_updateLast {f : Message → Message} {ms : List Message}
    {m' : Message} (h : m' ∈ updateLast f ms) :
    m' ∈ ms ∨ ∃ m ∈ ms, m' = f m := by
  rcases updateLast_spec f ms with ⟨h1, h2⟩ | ⟨init, last, h1, h2⟩
  · rw [h2] at h; cases h
  · rw [h2] at h
    rcases List.mem_append.1 h with h | h
    · exact Or.inl (by simp [h1, h])
    · simp at h
      exact Or.inr ⟨last, by simp [h1], h⟩

theorem updateLast_updateLast (f g : Message → Message) (ms : List Message) :
    updateLast f (updateLast g ms) = updateLast (fun m => f (g m)) ms := by
  rcases updateLast_spec g ms with ⟨h1, h2⟩ | ⟨init, last, h1, h2⟩
  · subst h1; simp [h2, updateLast]
  · subst h1
    rw [h2]
    rcases updateLast_spec f (init ++ [g last]) with ⟨h3, _⟩ | ⟨i2, l2, h3, h4⟩
    · exact absurd h3 (by simp)
    · have hi : i2 = init ∧ l2 = g last := by
        have := List.append_inj' h3.symm rfl
        simpa using this
      rcases updateLast_spec (fun m => f (g m)) (init ++ [last]) with ⟨h5, _⟩ | ⟨i3, l3, h5, h6⟩
      · exact absurd h5 (by simp)
      · have hi3 : i3 = init ∧ l3 = last := by
          have := List.append_inj' h5.symm rfl
          simpa using this
        rw [h4, h6, hi.1, hi.2, hi3.1, hi3.2]

theorem dropWhile_dropWhile (p : Char → Bool) (l : Str) :
    (l.dropWhile p).dropWhile p = l.dropWhile p := by
  induction l with
  | nil => rfl
  | cons c cs ih =>
    by_cases h : p c
    · simp [List.dropWhile, h, ih]
    · simp [List.dropWhile, h]

theorem rtrim_rtrim (s : Str) : rtrim (rtrim s) = rtrim s := by
  simp [rtrim, dropWhile_dropWhile]

theorem rtrim_head (c : Char) (s : Str) :
    rtrim (c :: s) = [] ∨ ∃ t, rtrim (c :: s) = c :: t := by
  have hsuff : (c :: s).reverse.dropWhile isWs <:+ (c :: s).reverse :=
    List.dropWhile_suffix isWs
  rcases hsuff with ⟨pre, hpre⟩
  rcases hdw : (c :: s).reverse.dropWhile isWs with _ | ⟨d, ds⟩
  · left
    unfold rtrim
    rw [hdw]
    rfl
  · right
    rw [hdw] at hpre
    have hrev : c :: s = (d :: ds).reverse ++ pre.reverse := by
      have := congrArg List.reverse hpre
      simpa using this.symm
    rcases hrevcase : (d :: ds).reverse with _ | ⟨e, es⟩
    · exact absurd hrevcase (by simp)
    · rw [hrevcase] at hrev
      have hce : e = c := by
        have := congrArg (fun l => l.head?) hrev
        simpa using this.symm
      refine ⟨es, ?_⟩
      unfold rtrim
      rw [hdw, hrevcase, hce]

theorem ltrim_head_not_ws {s : Str} {c : Char} {t : Str}
    (h : ltrim s = c :: t) : isWs c = false := by
  induction s with
  | nil => simp [ltrim] at h
  | cons d ds ih =>
    by_cases hd : isWs d
    · exact ih (by simpa [ltrim, List.dropWhile, hd] using h)
    · simp [ltrim, List.dropWhile, hd] at h
      rw [← h.1]
      simpa using hd

theorem trim_trim (s : Str) : trim (trim s) = trim s := by
  unfold trim
  rcases hl : ltrim s with _ | ⟨c, t⟩
  · rfl
  · have hc : isWs c = false := ltrim_head_not_ws hl
    rcases rtrim_head c t with h | ⟨t', h⟩
    · rw [h]
      rfl
    · rw [h]
      have : ltrim (c :: t') = c :: t' := by
        simp [ltrim, List.dropWhile, hc]
      rw [this, ← h, rtrim_rtrim, h]


/-! ## Helper lemmas: character-level views of the string literals -/

theorem sepDash_chars : sepDash = [' ', '-', ' '] := rfl

theorem isPrefixOf_iff : ∀ l₁ l₂ : Str, l₁.isPrefixOf l₂ = true ↔ ∃ t, l₂ = l₁ ++ t := by
  intro l₁
  induction l₁ with
  | nil => intro l₂; simp [List.isPrefixOf]
  | cons a as ih =>
    intro l₂
    cases l₂ with
    | nil => simp [List.isPrefixOf]
    | cons b bs =>
      simp only [List.isPrefixOf, Bool.and_eq_true, beq_iff_eq, ih, List.cons_append,
        List.cons.injEq]
      constructor
      · rintro ⟨rfl, t, rfl⟩
        exact ⟨t, rfl, rfl⟩
      · rintro ⟨t, rfl, rfl⟩
        exact ⟨rfl, t, rfl⟩

/-! ## Helper lemmas: splitDash, joinDash and the first separator occurrence -/

theorem splitDash_ne_nil : ∀ s : Str, splitDash s ≠ [] := by
  intro s
  induction s using splitDash.induct with
  | case1 => simp [splitDash]
  | case2 rest ih => simp [splitDash]
  | case3 c cs h hnil ih => simp [splitDash.eq_3 c cs h, hnil]
  | case4 c cs h p ps hcons ih => simp [splitDash.eq_3 c cs h, hcons]

theorem sepDash_isPrefixOf_eq_true (c : Char) (cs : Str) :
    sepDash.isPrefixOf (c :: cs) = true ↔ c = ' ' ∧ ∃ rest, cs = '-' :: ' ' :: rest := by
  rw [isPrefixOf_iff, sepDash_chars]
  constructor
  · rintro ⟨t, ht⟩
    simp only [List.cons_append, List.nil_append, List.cons.injEq] at ht
    exact ⟨ht.1, t, ht.2⟩
  · rintro ⟨rfl, rest, rfl⟩
    exact ⟨rest, rfl⟩

theorem splitDash_cons_not_sep {c : Char} {cs : Str}
    (h : sepDash.isPrefixOf (c :: cs) = false) :
    splitDash (c :: cs) = match splitDash cs with
      | [] => [[c]]
      | p :: ps => (c :: p) :: ps := by
  apply splitDash.eq_3
  intro rest hc hcs
  rw [hc, hcs] at h
  have : sepDash.isPrefixOf (' ' :: '-' :: ' ' :: rest) = true := by
    rw [sepDash_isPrefixOf_eq_true]
    exact ⟨rfl, rest, rfl⟩
  rw [this] at h
  cases h

theorem splitDash_firstSep : ∀ s : Str,
    (splitFirstSep sepDash s = none → splitDash s = [s]) ∧
    (∀ b a, splitFirstSep sepDash s = some (b, a) →
      splitDash s = b :: splitDash a) := by
  intro s
  induction s with
  | nil =>
    refine ⟨fun _ => rfl, fun b a h => ?_⟩
    simp [splitFirstSep] at h
  | cons c cs ih =>
    by_cases hp : sepDash.isPrefixOf (c :: cs) = true
    · obtain ⟨hc, rest, hcs⟩ := (sepDash_isPrefixOf_eq_true c cs).1 hp
      subst hc; subst hcs
      have hp2 : sepDash.isPrefixOf (' ' :: '-' :: ' ' :: rest) = true :=
        (sepDash_isPrefixOf_eq_true _ _).2 ⟨rfl, rest, rfl⟩
      have hd : splitFirstSep sepDash (' ' :: '-' :: ' ' :: rest) =
          some ([], rest) := by
        simp [splitFirstSep, hp2, sepDash_chars]
      constructor
      · intro h
        rw [hd] at h
        cases h
      · intro b a h
        rw [hd] at h
        simp only [Option.some.injEq, Prod.mk.injEq] at h
        obtain ⟨hb, ha⟩ := h
        subst hb; subst ha
        simp [splitDash]
    · have hp' : sepDash.isPrefixOf (c :: cs) = false := Bool.eq_false_iff.mpr hp
      constructor
      · intro h
        rcases hcs' : splitFirstSep sepDash cs with _ | pr
        · have h2 := ih.1 hcs'
          rw [splitDash_cons_not_sep hp', h2]
        · simp [splitFirstSep, hp', hcs'] at h
      · intro b a h
        rcases hcs' : splitFirstSep sepDash cs with _ | ⟨b', a'⟩
        · simp [splitFirstSep, hp', hcs'] at h
        · simp only [splitFirstSep, hp', Bool.false_eq_true, if_false, hcs',
            Option.map_some', Option.some.injEq, Prod.mk.injEq] at h
          obtain ⟨hb, ha⟩ := h
          have h2 := ih.2 b' a' hcs'
          subst hb; subst ha
          rw [splitDash_cons_not_sep hp', h2]

theorem splitFirstSep_decomp (sep : Str) : ∀ s b a,
    splitFirstSep sep s = some (b, a) → s = b ++ sep ++ a := by
  intro s
  induction s with
  | nil => intro b a h; simp [splitFirstSep] at h
  | cons c cs ih =>
    intro b a h
    by_cases hp : sep.isPrefixOf (c :: cs) = true
    · obtain ⟨t, ht⟩ := (isPrefixOf_iff sep (c :: cs)).1 hp
      have hd : splitFirstSep sep (c :: cs) =
          some ([], (c :: cs).drop sep.length) := by
        simp [splitFirstSep, hp]
      rw [hd] at h
      simp only [Option.some.injEq, Prod.mk.injEq] at h
      obtain ⟨hb, ha⟩ := h
      subst hb; subst ha
      rw [List.nil_append, ht, List.drop_left]
    · have hp' : sep.isPrefixOf (c :: cs) = false := Bool.eq_false_iff.mpr hp
      rcases hcs' : splitFirstSep sep cs with _ | ⟨b', a'⟩
      · simp [splitFirstSep, hp', hcs'] at h
      · simp only [splitFirstSep, hp', Bool.false_eq_true, if_false, hcs',
          Option.map_some', Option.some.injEq, Prod.mk.injEq] at h
        obtain ⟨hb, ha⟩ := h
        subst hb; subst ha
        have := ih b' a' hcs'
        rw [this]
        simp

theorem joinDash_splitDash_aux : ∀ n, ∀ s : Str, s.length ≤ n →
    joinDash (splitDash s) = s := by
  intro n
  induction n with
  | zero =>
    intro s hs
    have : s = [] := List.eq_nil_of_length_eq_zero (Nat.le_zero.1 hs)
    subst this
    rfl
  | succ n ihn =>
    intro s hs
    rcases h : splitFirstSep sepDash s with _ | ⟨b, a⟩
    · rw [(splitDash_firstSep s).1 h]
      rfl
    · rw [(splitDash_firstSep s).2 b a h]
      have hdec := splitFirstSep_decomp sepDash s b a h
      have hlen : a.length ≤ n := by
        rw [hdec] at hs
        simp [sepDash_chars] at hs
        omega
      have hjoin := ihn a hlen
      rcases hq : splitDash a with _ | ⟨q, qs⟩
      · exact absurd hq (splitDash_ne_nil a)
      · calc joinDash (b :: q :: qs)
            = b ++ sepDash ++ joinDash (q :: qs) := rfl
          _ = b ++ sepDash ++ joinDash (splitDash a) := by rw [hq]
          _ = b ++ sepDash ++ a := by rw [hjoin]
          _ = s := hdec.symm

theorem joinDash_splitDash (s : Str) : joinDash (splitDash s) = s :=
  joinDash_splitDash_aux s.length s (Nat.le_refl _)

/-- What lines 116-117 compute, phrased by the first occurrence of `" - "`:
the name is the text before it, the description the text after it — except
that both a missing separator and an empty after-part yield `"Running..."`. -/
theorem extractTool_eq (grp : Str) :
    extractTool grp =
      match splitFirstSep sepDash grp with
      | none => (grp, "Running...".data)
      | some (b, a) => (b, if a = [] then "Running...".data else a) := by
  rcases h : splitFirstSep sepDash grp with _ | ⟨b, a⟩
  · have h2 := (splitDash_firstSep grp).1 h
    simp [extractTool, h2, joinDash]
  · have h2 := (splitDash_firstSep grp).2 b a h
    have h3 := joinDash_splitDash a
    simp only [extractTool, h2]
    rw [h3]


/-! ## Helper lemmas: the branches of stepContent and processLine -/

theorem stepContent_tool_matched {c : Str} (s : StreamState)
    (h1 : containsSub toolNeedle c = true) {grp : Str}
    (h2 : matchToolCall c = some grp) :
    stepContent s c =
      { s with hasSeenToolCalls := true,
               messages := pushToolCall (extractTool grp).1 (extractTool grp).2
                 s.messages } := by
  simp [stepContent, h1, h2]

theorem stepContent_tool_unmatched {c : Str} (s : StreamState)
    (h1 : containsSub toolNeedle c = true)
    (h2 : matchToolCall c = none) :
    stepContent s c = { s with hasSeenToolCalls := true } := by
  simp [stepContent, h1, h2]

theorem stepContent_prose_break {c : Str} (s : StreamState)
    (h1 : containsSub toolNeedle c = false)
    (h2 : s.hasSeenToolCalls = true)
    (h3 : trim c ≠ []) :
    stepContent s c =
      { messages := s.messages ++
          [{ role := Role.assistant, content := c, toolCalls := some [] }],
        assistantMessage := c,
        hasSeenToolCalls := false } := by
  simp [stepContent, h1, h2, h3]

theorem stepContent_prose_accum {c : Str} (s : StreamState)
    (h1 : containsSub toolNeedle c = false)
    (h2 : s.hasSeenToolCalls = false ∨ trim c = []) :
    stepContent s c =
      { messages := updateLast
          (fun m => if m.role = Role.assistant then
              { m with content := s.assistantMessage ++ c }
            else m) s.messages,
        assistantMessage := s.assistantMessage ++ c,
        hasSeenToolCalls := s.hasSeenToolCalls } := by
  rcases h2 with h2 | h2
  · simp [stepContent, h1, h2]
  · simp [stepContent, h1, h2]

theorem dataMarker_chars : dataMarker = ['d', 'a', 't', 'a', ':', ' '] := rfl

theorem doneMarker_chars : doneMarker = ['[', 'D', 'O', 'N', 'E', ']'] := rfl

theorem dataMarker_isPrefixOf_append (p : Str) :
    dataMarker.isPrefixOf (dataMarker ++ p) = true := by
  rw [isPrefixOf_iff]
  exact ⟨p, rfl⟩

theorem drop_dataMarker (p : Str) : (dataMarker ++ p).drop 6 = p := rfl

/-- A `data: `-marked line whose payload decodes to nothing (the sentinel
aside, malformed JSON and missing fields) leaves the state untouched. -/
theorem processLine_decode_none (decode : Str → Option Str) (s : StreamState)
    (p : Str) (h : decode p = none) :
    processLine decode s (dataMarker ++ p) = s := by
  by_cases hd : p = doneMarker
  · simp [processLine, dataMarker_isPrefixOf_append, drop_dataMarker, hd]
  · simp [processLine, dataMarker_isPrefixOf_append, drop_dataMarker, hd, h]

theorem processLine_not_data (decode : Str → Option Str) (s : StreamState)
    (line : Str) (h : dataMarker.isPrefixOf line = false) :
    processLine decode s line = s := by
  simp [processLine, h]

theorem processLine_done (decode : Str → Option Str) (s : StreamState) :
    processLine decode s (dataMarker ++ doneMarker) = s := by
  simp [processLine, dataMarker_isPrefixOf_append, drop_dataMarker]

theorem processLine_decode_some (decode : Str → Option Str) (s : StreamState)
    (p c : Str) (hd : p ≠ doneMarker) (h : decode p = some c) (hc : c ≠ []) :
    processLine decode s (dataMarker ++ p) = stepContent s c := by
  simp [processLine, dataMarker_isPrefixOf_append, drop_dataMarker, hd, h, hc]

theorem processLines_cons (decode : Str → Option Str) (s : StreamState)
    (l : Str) (rest : List Str) :
    processLines decode s (l :: rest) =
      processLines decode (processLine decode s l) rest := rfl

theorem processLines_append (decode : Str → Option Str) (s : StreamState)
    (ls₁ ls₂ : List Str) :
    processLines decode s (ls₁ ++ ls₂) =
      processLines decode (processLines decode s ls₁) ls₂ := by
  simp [processLines, List.foldl_append]

/-- The chunk loop is the line loop over the per-chunk line splits
concatenated: the code carries no text across chunk boundaries. -/
theorem processChunks_eq_processLines (decode : Str → Option Str) :
    ∀ (chunks : List Str) (s : StreamState),
      processChunks decode s chunks =
        processLines decode s (chunks.flatMap splitNl) := by
  intro chunks
  induction chunks with
  | nil => intro s; rfl
  | cons ch rest ih =>
    intro s
    rw [List.flatMap_cons]
    rw [processLines_append]
    exact ih (processChunk decode s ch)


/-! ## Helper lemmas: the dedup-guarded push -/

theorem pushFun_role (n d : Str) (m : Message) : (pushFun n d m).role = m.role := by
  unfold pushFun
  by_cases h : m.role = Role.assistant
  · simp only [h, if_true]
    by_cases h2 : ∃ call ∈ m.toolCalls.getD [],
        joinNameDesc call.name call.description = joinNameDesc (trim n) (trim d)
    · simp [h2]
    · simp [h2]
  · simp [h]

theorem pushFun_content (n d : Str) (m : Message) :
    (pushFun n d m).content = m.content := by
  unfold pushFun
  by_cases h : m.role = Role.assistant
  · simp only [h, if_true]
    by_cases h2 : ∃ call ∈ m.toolCalls.getD [],
        joinNameDesc call.name call.description = joinNameDesc (trim n) (trim d)
    · simp [h2]
    · simp [h2]
  · simp [h]

theorem pushFun_idem (n d : Str) (m : Message) :
    pushFun n d (pushFun n d m) = pushFun n d m := by
  by_cases h : m.role = Role.assistant
  · by_cases h2 : ∃ call ∈ m.toolCalls.getD [],
        joinNameDesc call.name call.description = joinNameDesc (trim n) (trim d)
    · have hm : pushFun n d m = { m with toolCalls := some (m.toolCalls.getD []) } := by
        simp [pushFun, h, h2]
      rw [hm]
      simp [pushFun, h, h2]
    · have hm : pushFun n d m = { m with toolCalls := some (m.toolCalls.getD [] ++ [⟨trim n, trim d⟩]) } := by
        simp [pushFun, h, h2]
      rw [hm]
      have h3 : ∃ call ∈ m.toolCalls.getD [] ++ [(⟨trim n, trim d⟩ : ToolCall)],
          joinNameDesc call.name call.description = joinNameDesc (trim n) (trim d) :=
        ⟨⟨trim n, trim d⟩, by simp, rfl⟩
      simp [pushFun, h, h3]
      exact ⟨⟨trim n, trim d⟩, Or.inr rfl, rfl⟩
  · have hm : pushFun n d m = m := by simp [pushFun, h]
    rw [hm]
    exact hm

theorem pushToolCall_idem (n d : Str) (ms : List Message) :
    pushToolCall n d (pushToolCall n d ms) = pushToolCall n d ms := by
  unfold pushToolCall
  rw [updateLast_updateLast]
  have : (fun m => pushFun n d (pushFun n d m)) = pushFun n d :=
    funext (pushFun_idem n d)
  rw [this]

theorem stepContent_tool_idem (s : StreamState) (c : Str)
    (h1 : containsSub toolNeedle c = true) :
    stepContent (stepContent s c) c = stepContent s c := by
  rcases h2 : matchToolCall c with _ | grp
  · rw [stepContent_tool_unmatched s h1 h2,
      stepContent_tool_unmatched _ h1 h2]
  · rw [stepContent_tool_matched s h1 h2,
      stepContent_tool_matched _ h1 h2]
    simp [pushToolCall_idem]

/-! ## Helper lemmas: the uniqueness invariant -/

theorem toolCallsInv_nil : ToolCallsInv [] := ⟨by simp, List.Pairwise.nil⟩

theorem pairwise_imp_mem {R S : ToolCall → ToolCall → Prop} :
    ∀ {l : List ToolCall}, (∀ a ∈ l, ∀ b ∈ l, R a b → S a b) →
      l.Pairwise R → l.Pairwise S := by
  intro l h hp
  induction hp with
  | nil => exact List.Pairwise.nil
  | @cons a l₂ hhead htail ih =>
    constructor
    · intro b hb
      exact h a (List.mem_cons_self a l₂) b (List.mem_cons_of_mem a hb)
        (hhead b hb)
    · exact ih fun x hx y hy hr =>
        h x (List.mem_cons_of_mem a hx) y (List.mem_cons_of_mem a hy) hr

theorem distinctPairs_of_inv {tcs : List ToolCall} (h : ToolCallsInv tcs) :
    DistinctPairs tcs := by
  obtain ⟨hTrim, hPair⟩ := h
  refine pairwise_imp_mem ?_ hPair
  intro a ha b hb hR hEq
  apply hR
  obtain ⟨han, had⟩ := hTrim a ha
  obtain ⟨hbn, hbd⟩ := hTrim b hb
  simp only [Prod.mk.injEq] at hEq
  rw [joinNameDesc, joinNameDesc, ← han, ← hbn, ← had, ← hbd, hEq.1, hEq.2]

theorem pushFun_inv (n d : Str) (m : Message)
    (h : ToolCallsInv (m.toolCalls.getD [])) :
    ToolCallsInv ((pushFun n d m).toolCalls.getD []) := by
  by_cases hr : m.role = Role.assistant
  · by_cases h2 : ∃ call ∈ m.toolCalls.getD [],
        joinNameDesc call.name call.description = joinNameDesc (trim n) (trim d)
    · have hm : pushFun n d m = { m with toolCalls := some (m.toolCalls.getD []) } := by
        simp [pushFun, hr, h2]
      rw [hm]
      simpa using h
    · have hm : pushFun n d m = { m with toolCalls := some (m.toolCalls.getD [] ++ [⟨trim n, trim d⟩]) } := by
        simp [pushFun, hr, h2]
      rw [hm]
      obtain ⟨hTrim, hPair⟩ := h
      constructor
      · intro tc htc
        simp only [Option.getD_some] at htc ⊢
        rcases List.mem_append.1 htc with htc | htc
        · exact hTrim tc htc
        · simp only [List.mem_singleton] at htc
          subst htc
          exact ⟨trim_trim n, trim_trim d⟩
      · simp only [Option.getD_some]
        rw [List.pairwise_append]
        refine ⟨hPair, List.pairwise_singleton .., ?_⟩
        intro a ha b hb
        simp only [List.mem_singleton] at hb
        subst hb
        intro hEq
        exact h2 ⟨a, ha, hEq⟩
  · have hm : pushFun n d m = m := by simp [pushFun, hr]
    rw [hm]
    exact h

/-- The per-message invariant over a whole transcript. -/
def MessagesInv (ms : List Message) : Prop :=
  ∀ m ∈ ms, ToolCallsInv (m.toolCalls.getD [])

theorem messagesInv_stepContent {s : StreamState} (c : Str)
    (h : MessagesInv s.messages) : MessagesInv (stepContent s c).messages := by
  by_cases h1 : containsSub toolNeedle c = true
  · rcases h2 : matchToolCall c with _ | grp
    · rw [stepContent_tool_unmatched s h1 h2]
      exact h
    · rw [stepContent_tool_matched s h1 h2]
      intro m' hm'
      simp only at hm'
      rcases mem_updateLast hm' with hm' | ⟨m, hm, rfl⟩
      · exact h m' hm'
      · exact pushFun_inv _ _ m (h m hm)
  · have h1' : containsSub toolNeedle c = false := Bool.eq_false_iff.mpr h1
    by_cases h2 : s.hasSeenToolCalls = true ∧ ¬ trim c = []
    · rw [stepContent_prose_break s h1' h2.1 h2.2]
      intro m' hm'
      simp only [List.mem_append, List.mem_singleton] at hm'
      rcases hm' with hm' | rfl
      · exact h m' hm'
      · exact toolCallsInv_nil
    · have h2' : s.hasSeenToolCalls = false ∨ trim c = [] := by
        rcases Decidable.not_and_iff_or_not.1 h2 with hh | hh
        · exact Or.inl (Bool.eq_false_iff.mpr hh)
        · exact Or.inr (Decidable.not_not.1 hh)
      rw [stepContent_prose_accum s h1' h2']
      intro m' hm'
      simp only at hm'
      rcases mem_updateLast hm' with hm' | ⟨m, hm, rfl⟩
      · exact h m' hm'
      · by_cases hr : m.role = Role.assistant
        · simpa [hr] using h m hm
        · simpa [hr] using h m hm

theorem processLine_cases (decode : Str → Option Str) (s : StreamState)
    (line : Str) :
    processLine decode s line = s ∨
      ∃ c, c ≠ [] ∧ processLine decode s line = stepContent s c := by
  unfold processLine
  by_cases h1 : dataMarker.isPrefixOf line = true
  · simp only [h1, if_true]
    by_cases h2 : line.drop 6 = doneMarker
    · simp [h2]
    · simp only [h2, if_false]
      rcases h3 : decode (line.drop 6) with _ | c
      · exact Or.inl rfl
      · by_cases hc : c = []
        · simp [hc]
        · simp only [hc, if_false]
          exact Or.inr ⟨c, hc, rfl⟩
  · have h1' : dataMarker.isPrefixOf line = false := Bool.eq_false_iff.mpr h1
    simp [h1']

theorem messagesInv_processLine (decode : Str → Option Str) {s : StreamState}
    (line : Str) (h : MessagesInv s.messages) :
    MessagesInv (processLine decode s line).messages := by
  rcases processLine_cases decode s line with heq | ⟨c, hc, heq⟩
  · rw [heq]; exact h
  · rw [heq]; exact messagesInv_stepContent c h

theorem messagesInv_processLines (decode : Str → Option Str) :
    ∀ (lines : List Str) (s : StreamState), MessagesInv s.messages →
      MessagesInv (processLines decode s lines).messages := by
  intro lines
  induction lines with
  | nil => intro s h; exact h
  | cons l rest ih =>
    intro s h
    rw [processLines_cons]
    exact ih _ (messagesInv_processLine decode l h)

theorem messagesInv_processChunks (decode : Str → Option Str)
    (chunks : List Str) (s : StreamState) (h : MessagesInv s.messages) :
    MessagesInv (processChunks decode s chunks).messages := by
  rw [processChunks_eq_processLines]
  exact messagesInv_processLines decode _ s h

theorem messagesInv_initialState (base : List Message)
    (h : MessagesInv base) : MessagesInv (initialState base).messages := by
  intro m hm
  simp only [initialState, List.mem_append, List.mem_singleton] at hm
  rcases hm with hm | rfl
  · exact h m hm
  · exact toolCallsInv_nil


/-! ## Helper lemmas: the in-progress assistant message and content growth -/

theorem lastOk_initialState (base : List Message) : LastOk (initialState base) := by
  refine ⟨{ role := Role.assistant, content := [], toolCalls := some [] }, ?_, rfl, rfl⟩
  simp [initialState, List.getLast?_concat]

theorem lastOk_stepContent {s : StreamState} (c : Str) (h : LastOk s) :
    LastOk (stepContent s c) := by
  obtain ⟨m, hm, hrole, hcontent⟩ := h
  by_cases h1 : containsSub toolNeedle c = true
  · rcases h2 : matchToolCall c with _ | grp
    · rw [stepContent_tool_unmatched s h1 h2]
      exact ⟨m, hm, hrole, hcontent⟩
    · rw [stepContent_tool_matched s h1 h2]
      refine ⟨pushFun (extractTool grp).1 (extractTool grp).2 m, ?_, ?_, ?_⟩
      · simp only [pushToolCall, getLast?_updateLast, hm, Option.map_some']
      · rw [pushFun_role]; exact hrole
      · rw [pushFun_content]; exact hcontent
  · have h1' : containsSub toolNeedle c = false := Bool.eq_false_iff.mpr h1
    by_cases h2 : s.hasSeenToolCalls = true ∧ ¬ trim c = []
    · rw [stepContent_prose_break s h1' h2.1 h2.2]
      refine ⟨{ role := Role.assistant, content := c, toolCalls := some [] }, ?_, rfl, rfl⟩
      simp [List.getLast?_concat]
    · have h2' : s.hasSeenToolCalls = false ∨ trim c = [] := by
        rcases Decidable.not_and_iff_or_not.1 h2 with hh | hh
        · exact Or.inl (Bool.eq_false_iff.mpr hh)
        · exact Or.inr (Decidable.not_not.1 hh)
      rw [stepContent_prose_accum s h1' h2']
      refine ⟨{ m with content := s.assistantMessage ++ c }, ?_, hrole, rfl⟩
      simp only [getLast?_updateLast, hm, Option.map_some', hrole, if_pos]

theorem length_stepContent (s : StreamState) (c : Str) :
    s.messages.length ≤ (stepContent s c).messages.length := by
  by_cases h1 : containsSub toolNeedle c = true
  · rcases h2 : matchToolCall c with _ | grp
    · rw [stepContent_tool_unmatched s h1 h2]
    · rw [stepContent_tool_matched s h1 h2]
      simp [pushToolCall, length_updateLast]
  · have h1' : containsSub toolNeedle c = false := Bool.eq_false_iff.mpr h1
    by_cases h2 : s.hasSeenToolCalls = true ∧ ¬ trim c = []
    · rw [stepContent_prose_break s h1' h2.1 h2.2]
      simp
    · have h2' : s.hasSeenToolCalls = false ∨ trim c = [] := by
        rcases Decidable.not_and_iff_or_not.1 h2 with hh | hh
        · exact Or.inl (Bool.eq_false_iff.mpr hh)
        · exact Or.inr (Decidable.not_not.1 hh)
      rw [stepContent_prose_accum s h1' h2']
      simp [length_updateLast]

theorem stepContent_growth {s : StreamState} (c : Str) (h : LastOk s)
    (hlen : (stepContent s c).messages.length = s.messages.length)
    {m : Message} (hm : s.messages.getLast? = some m) :
    ∃ m' t, (stepContent s c).messages.getLast? = some m'
      ∧ m'.content = m.content ++ t := by
  obtain ⟨m0, hm0, hrole0, hcontent0⟩ := h
  rw [hm] at hm0
  have hner : m = m0 := Option.some.inj hm0
  subst hner
  by_cases h1 : containsSub toolNeedle c = true
  · rcases h2 : matchToolCall c with _ | grp
    · rw [stepContent_tool_unmatched s h1 h2]
      exact ⟨m, [], hm, by simp⟩
    · rw [stepContent_tool_matched s h1 h2]
      refine ⟨pushFun (extractTool grp).1 (extractTool grp).2 m, [], ?_, ?_⟩
      · simp only [pushToolCall, getLast?_updateLast, hm, Option.map_some']
      · rw [pushFun_content]; simp
  · have h1' : containsSub toolNeedle c = false := Bool.eq_false_iff.mpr h1
    by_cases h2 : s.hasSeenToolCalls = true ∧ ¬ trim c = []
    · exfalso
      rw [stepContent_prose_break s h1' h2.1 h2.2] at hlen
      simp at hlen
    · have h2' : s.hasSeenToolCalls = false ∨ trim c = [] := by
        rcases Decidable.not_and_iff_or_not.1 h2 with hh | hh
        · exact Or.inl (Bool.eq_false_iff.mpr hh)
        · exact Or.inr (Decidable.not_not.1 hh)
      rw [stepContent_prose_accum s h1' h2']
      refine ⟨{ m with content := s.assistantMessage ++ c }, c, ?_, ?_⟩
      · simp only [getLast?_updateLast, hm, Option.map_some', hrole0, if_pos]
      · simp [hcontent0]

theorem lastOk_processLine (decode : Str → Option Str) {s : StreamState}
    (line : Str) (h : LastOk s) : LastOk (processLine decode s line) := by
  rcases processLine_cases decode s line with heq | ⟨c, hc, heq⟩
  · rw [heq]; exact h
  · rw [heq]; exact lastOk_stepContent c h

theorem length_processLine (decode : Str → Option Str) (s : StreamState)
    (line : Str) :
    s.messages.length ≤ (processLine decode s line).messages.length := by
  rcases processLine_cases decode s line with heq | ⟨c, hc, heq⟩
  · rw [heq]
  · rw [heq]; exact length_stepContent s c

theorem processLine_growth (decode : Str → Option Str) {s : StreamState}
    (line : Str) (h : LastOk s)
    (hlen : (processLine decode s line).messages.length = s.messages.length)
    {m : Message} (hm : s.messages.getLast? = some m) :
    ∃ m' t, (processLine decode s line).messages.getLast? = some m'
      ∧ m'.content = m.content ++ t := by
  rcases processLine_cases decode s line with heq | ⟨c, hc, heq⟩
  · rw [heq]
    exact ⟨m, [], hm, by simp⟩
  · rw [heq]
    rw [heq] at hlen
    exact stepContent_growth c h hlen hm

theorem processLines_growth (decode : Str → Option Str) :
    ∀ (lines : List Str) (s : StreamState), LastOk s →
      LastOk (processLines decode s lines) ∧
      s.messages.length ≤ (processLines decode s lines).messages.length ∧
      ((processLines decode s lines).messages.length = s.messages.length →
        ∀ m, s.messages.getLast? = some m →
          ∃ m' t, (processLines decode s lines).messages.getLast? = some m'
            ∧ m'.content = m.content ++ t) := by
  intro lines
  induction lines with
  | nil =>
    intro s h
    exact ⟨h, Nat.le_refl _, fun _ m hm => ⟨m, [], hm, by simp⟩⟩
  | cons l rest ih =>
    intro s h
    have h1 : LastOk (processLine decode s l) := lastOk_processLine decode l h
    obtain ⟨ihOk, ihLe, ihGrow⟩ := ih (processLine decode s l) h1
    rw [processLines_cons]
    refine ⟨ihOk, Nat.le_trans (length_processLine decode s l) ihLe, ?_⟩
    intro hlen m hm
    have hlen1 : (processLine decode s l).messages.length = s.messages.length := by
      have := length_processLine decode s l
      omega
    obtain ⟨m1, t1, hm1, hc1⟩ := processLine_growth decode l h (by omega) hm
    have hlen2 : (processLines decode (processLine decode s l) rest).messages.length
        = (processLine decode s l).messages.length := by omega
    obtain ⟨m', t2, hm', hc2⟩ := ihGrow hlen2 m1 hm1
    exact ⟨m', t1 ++ t2, hm', by rw [hc2, hc1, List.append_assoc]⟩

theorem processChunks_growth (decode : Str → Option Str)
    (chunks : List Str) (s : StreamState) (h : LastOk s) :
    LastOk (processChunks decode s chunks) ∧
    s.messages.length ≤ (processChunks decode s chunks).messages.length ∧
    ((processChunks decode s chunks).messages.length = s.messages.length →
      ∀ m, s.messages.getLast? = some m →
        ∃ m' t, (processChunks decode s chunks).messages.getLast? = some m'
          ∧ m'.content = m.content ++ t) := by
  rw [processChunks_eq_processLines]
  exact processLines_growth decode _ s h


/-! # The claims -/

/-- Claim C1: the claim asserts chunk-boundary invariance — splitting the
byte sequence at arbitrary fragment boundaries yields the same reconstructed
line sequence, a trailing partial line being carried into the next fragment.
The code has no such carry-over buffer: line 93 splits each chunk on `'\n'`
in isolation, so the same bytes `"data: x\n"` split mid-line into `"da"` and
`"ta: x\n"` yield the line sequence `["da", "ta: x", ""]` instead of
`["data: x", ""]`, and the event is lost: the split run leaves the transcript
untouched while the unsplit run records the delta content. -/
theorem chunk_split_loses_midline_event :
    ("da".data ++ "ta: x\n".data = "data: x\n".data)
    ∧ ["da".data, "ta: x\n".data].flatMap splitNl ≠
        ["data: x\n".data].flatMap splitNl
    ∧ processChunks tinyDecode (initialState []) ["da".data, "ta: x\n".data] ≠
        processChunks tinyDecode (initialState []) ["data: x\n".data] :=
  ⟨by decide, by decide, by decide⟩

/-- Claim C2 counterexample: the claim says processing stops at the `[DONE]`
sentinel and later lines cause no Transcript mutation.  Line 98 of the code
is `continue`, not a loop exit: after the sentinel, the following
`data: x` line is still decoded and mutates the transcript. -/
theorem line_after_done_processed :
    processLine tinyDecode (initialState []) "data: [DONE]".data =
      initialState []
    ∧ processLines tinyDecode (initialState [])
        ["data: [DONE]".data, "data: x".data] ≠ initialState [] :=
  ⟨by decide, by decide⟩

/-- Claim C2 (amended): upon reading a line whose payload equals `"[DONE]"`,
that line itself is skipped and causes no Transcript or state mutation, but
the interpreter does not stop: lines following the sentinel, in the same
chunk or in later chunks, are processed normally. -/
theorem done_line_skipped_not_stopping (decode : Str → Option Str)
    (s : StreamState) (rest : List Str) :
    processLine decode s (dataMarker ++ doneMarker) = s
    ∧ processLines decode s ((dataMarker ++ doneMarker) :: rest) =
        processLines decode s rest := by
  refine ⟨processLine_done decode s, ?_⟩
  rw [processLines_cons, processLine_done]

/-- Witness for the amended C2 at a concrete state and follow-up line. -/
theorem done_line_skipped_not_stopping_witness :
    processLine tinyDecode (initialState []) (dataMarker ++ doneMarker) =
      initialState []
    ∧ processLines tinyDecode (initialState [])
        ((dataMarker ++ doneMarker) :: ["data: x".data]) =
        processLines tinyDecode (initialState []) ["data: x".data] :=
  done_line_skipped_not_stopping tinyDecode (initialState []) ["data: x".data]

/-- Claim C3: the end-to-end prose → tool-call → prose stream produces
exactly two assistant Messages — the first holding the pre-tool prose and
the extracted ToolCall, the second holding only the later prose with an
empty toolCalls list — and in general, non-blank prose arriving while
`hasSeenToolCalls` (the spec's `awaitingNewSegment`) is set appends a
brand-new assistant Message holding that chunk and clears the flag. -/
theorem segment_break_property :
    ((runStream sampleDecode [] (.success scenarioChunks)).1 =
      [{ role := Role.assistant, content := "Hello ".data,
         toolCalls := some [{ name := "Search".data,
                              description := "querying corpus".data }] },
       { role := Role.assistant, content := "Result: X".data,
         toolCalls := some [] }])
    ∧ ∀ (s : StreamState) (c : Str), s.hasSeenToolCalls = true →
        containsSub toolNeedle c = false → trim c ≠ [] →
        stepContent s c =
          { messages := s.messages ++
              [{ role := Role.assistant, content := c, toolCalls := some [] }],
            assistantMessage := c,
            hasSeenToolCalls := false } := by
  refine ⟨by decide, ?_⟩
  intro s c h1 h2 h3
  exact stepContent_prose_break s h2 h1 h3

/-- Witness for C3's segment-break step at a concrete state and chunk. -/
theorem segment_break_property_witness :
    stepContent stAwaiting "Y".data =
      ⟨[⟨Role.assistant, "Y".data, some []⟩], "Y".data, false⟩ := by
  have h := segment_break_property.2 stAwaiting "Y".data rfl (by decide) (by decide)
  simpa [stAwaiting] using h

/-- Claim C4: in every transcript the interpreter produces (from a base
whose messages already satisfy the maintained invariant — in particular the
empty initial transcript), no message carries two ToolCall entries with the
same trimmed `(name, description)` pair; and feeding the same tool-call
chunk twice in succession changes nothing the second time. -/
theorem toolcall_dedup :
    (∀ (decode : Str → Option Str) (base : List Message) (chunks : List Str),
      (∀ m ∈ base, ToolCallsInv (m.toolCalls.getD [])) →
      ∀ m ∈ (processChunks decode (initialState base) chunks).messages,
        DistinctPairs (m.toolCalls.getD []))
    ∧ ∀ (s : StreamState) (c : Str), containsSub toolNeedle c = true →
        stepContent (stepContent s c) c = stepContent s c := by
  constructor
  · intro decode base chunks hbase m hm
    exact distinctPairs_of_inv
      (messagesInv_processChunks decode chunks _
        (messagesInv_initialState base hbase) m hm)
  · intro s c h
    exact stepContent_tool_idem s c h

/-- Witness for C4: the scenario transcript's first message satisfies the
uniqueness property, and a duplicate tool-call chunk is a no-op. -/
theorem toolcall_dedup_witness :
    DistinctPairs (msgHello.toolCalls.getD [])
    ∧ stepContent (stepContent stEmpty "[Calling tool: A]".data)
        "[Calling tool: A]".data = stepContent stEmpty "[Calling tool: A]".data := by
  constructor
  · exact toolcall_dedup.1 sampleDecode [] scenarioChunks (by simp)
      msgHello (by decide)
  · exact toolcall_dedup.2 stEmpty "[Calling tool: A]".data (by decide)

/-- Claim C5: a `data: `-marked line whose payload the decoder rejects
(malformed JSON) leaves the whole stream state — transcript included —
unchanged, and processing carries on exactly as if the line were absent, so
surrounding well-formed events are handled normally. -/
theorem malformed_line_tolerated (decode : Str → Option Str) (s : StreamState)
    (p : Str) (pre post : List Str) (h : decode p = none) :
    processLine decode s (dataMarker ++ p) = s
    ∧ processLines decode s (pre ++ (dataMarker ++ p) :: post) =
        processLines decode s (pre ++ post) := by
  refine ⟨processLine_decode_none decode s p h, ?_⟩
  rw [processLines_append, processLines_cons,
    processLine_decode_none decode _ p h, ← processLines_append]

/-- Witness for C5 with the undecodable payload of spec §8. -/
theorem malformed_line_tolerated_witness :
    processLine (fun _ => none) (initialState [])
      (dataMarker ++ "\x7bnot valid json".data) = initialState []
    ∧ processLines (fun _ => none) (initialState [])
        ([] ++ (dataMarker ++ "\x7bnot valid json".data) :: []) =
        processLines (fun _ => none) (initialState []) ([] ++ []) :=
  malformed_line_tolerated (fun _ => none) (initialState [])
    "\x7bnot valid json".data [] [] rfl

/-- Claim C6: on either transport failure — a non-success HTTP status or a
mid-stream read error — the run ends with the streaming flag cleared and
exactly one system-role Message, whose content is the human-readable
`Error: ...` text, appended after the untouched prior messages (for the HTTP
case the pre-stream transcript, for the mid-stream case whatever the chunks
processed so far produced, partial assistant content not rolled back). -/
theorem transport_error_reporting (decode : Str → Option Str)
    (base : List Message) (status e : Str) (chunks : List Str) :
    ((runStream decode base (.httpError status)).2 = false
      ∧ (runStream decode base (.httpError status)).1.dropLast = base
      ∧ (runStream decode base (.httpError status)).1.getLast? =
          some (errorMessage ("HTTP error! status: ".data ++ status))
      ∧ (errorMessage ("HTTP error! status: ".data ++ status)).role =
          Role.system)
    ∧ ((runStream decode base (.streamError chunks e)).2 = false
      ∧ (runStream decode base (.streamError chunks e)).1.dropLast =
          (processChunks decode (initialState base) chunks).messages
      ∧ (runStream decode base (.streamError chunks e)).1.getLast? =
          some (errorMessage e)
      ∧ (errorMessage e).role = Role.system) := by
  refine ⟨⟨rfl, ?_, ?_, rfl⟩, ⟨rfl, ?_, ?_, rfl⟩⟩ <;>
    simp [runStream, List.dropLast_concat, List.getLast?_concat]

/-- Witness for C6 at a concrete failing run. -/
theorem transport_error_reporting_witness :
    (runStream tinyDecode [] (.httpError "500".data)).2 = false :=
  (transport_error_reporting tinyDecode [] "500".data "x".data []).1.1

/-- Claim C7: after any stream the last message is the in-progress assistant
message whose content equals the full accumulated text (the overwrite of
lines 163-174 writes the accumulated value, never a delta), and while the
message count does not change — i.e. while the same message stays last — its
content only ever grows by appending: every earlier value is a front part of
every later one. -/
theorem assistant_content_monotone :
    (∀ (decode : Str → Option Str) (base : List Message) (chunks : List Str),
      LastOk (processChunks decode (initialState base) chunks))
    ∧ ∀ (decode : Str → Option Str) (s : StreamState) (chunks : List Str),
        LastOk s →
        (processChunks decode s chunks).messages.length = s.messages.length →
        ∀ m, s.messages.getLast? = some m →
          ∃ m' t, (processChunks decode s chunks).messages.getLast? = some m'
            ∧ m'.content = m.content ++ t := by
  constructor
  · intro decode base chunks
    exact (processChunks_growth decode chunks _ (lastOk_initialState base)).1
  · intro decode s chunks h hlen m hm
    exact (processChunks_growth decode chunks s h).2.2 hlen m hm

/-- Witness for C7: one accumulating chunk extends the shell's content. -/
theorem assistant_content_monotone_witness :
    ∃ m' t,
      (processChunks tinyDecode (initialState [])
        ["data: x\n".data]).messages.getLast? = some m'
      ∧ m'.content = emptyShell.content ++ t :=
  assistant_content_monotone.2 tinyDecode (initialState []) ["data: x\n".data]
    (lastOk_initialState []) (by decide) emptyShell (by decide)

/-- Claim C8 counterexample: on the annotation text `"Search - "` the
separator `" - "` is present and the text after it is empty, so the claim as
stated demands the empty description; the code's `|| 'Running...'` fallback
(line 117) fires on the empty string and yields `"Running..."` instead. -/
theorem empty_description_gives_running :
    splitFirstSep sepDash "Search - ".data = some ("Search".data, [])
    ∧ extractTool "Search - ".data = ("Search".data, "Running...".data)
    ∧ "Running...".data ≠ ([] : Str) :=
  ⟨by decide, by decide, by decide⟩

/-- Claim C8 (amended): the annotation text is split at the first
occurrence of `" - "`; the name is the text before it and the description
the entire text after it (further `" - "` occurrences included); when no
`" - "` is present or the text after the first one is empty, the
description is the literal `"Running..."`. -/
theorem extract_split_first_occurrence (grp : Str) :
    extractTool grp =
      match splitFirstSep sepDash grp with
      | none => (grp, "Running...".data)
      | some (b, a) => (b, if a = [] then "Running...".data else a) :=
  extractTool_eq grp

/-- Witness for the amended C8 on a text with two separators. -/
theorem extract_split_first_occurrence_witness :
    extractTool "A - b - c".data =
      match splitFirstSep sepDash "A - b - c".data with
      | none => ("A - b - c".data, "Running...".data)
      | some (b, a) => (b, if a = [] then "Running...".data else a) :=
  extract_split_first_occurrence "A - b - c".data

/-- Claim C9: a chunk classified as a tool call (it contains
`"[Calling tool:"`) contributes nothing but a possible ToolCall record: no
message content changes, no message is added, and the accumulator is left
alone — any prose sharing the chunk is dropped. -/
theorem tool_chunk_drops_prose (s : StreamState) (c : Str)
    (h : containsSub toolNeedle c = true) :
    (stepContent s c).messages.map Message.content =
      s.messages.map Message.content
    ∧ (stepContent s c).messages.length = s.messages.length
    ∧ (stepContent s c).assistantMessage = s.assistantMessage := by
  rcases h2 : matchToolCall c with _ | grp
  · rw [stepContent_tool_unmatched s h h2]
    exact ⟨rfl, rfl, rfl⟩
  · rw [stepContent_tool_matched s h h2]
    refine ⟨?_, ?_, rfl⟩
    · unfold pushToolCall
      exact map_updateLast Message.content _
        (fun m => pushFun_content (extractTool grp).1 (extractTool grp).2 m)
        s.messages
    · simp [pushToolCall, length_updateLast]

/-- Witness for C9 on a mixed prose-and-annotation chunk. -/
theorem tool_chunk_drops_prose_witness :
    (stepContent stHi "note [Calling tool: A - b] more".data).messages.map
        Message.content = stHi.messages.map Message.content
    ∧ (stepContent stHi "note [Calling tool: A - b] more".data).messages.length =
        stHi.messages.length
    ∧ (stepContent stHi "note [Calling tool: A - b] more".data).assistantMessage =
        stHi.assistantMessage :=
  tool_chunk_drops_prose stHi "note [Calling tool: A - b] more".data (by decide)

/-- Claim C10: a chunk containing `"[Calling tool:"` with no complete
`"[Calling tool: <nonempty-non-bracket> ]"` span (an unclosed bracket, say)
appends no ToolCall and no prose — the only effect is setting
`hasSeenToolCalls` — yet that flag makes the next non-blank prose chunk
open a brand-new assistant Message rather than extend the current one. -/
theorem unmatched_tool_marker (s : StreamState) (c cN : Str)
    (h1 : containsSub toolNeedle c = true)
    (h2 : matchToolCall c = none)
    (h3 : containsSub toolNeedle cN = false)
    (h4 : trim cN ≠ []) :
    stepContent s c = { s with hasSeenToolCalls := true }
    ∧ stepContent (stepContent s c) cN =
        { messages := s.messages ++
            [{ role := Role.assistant, content := cN, toolCalls := some [] }],
          assistantMessage := cN,
          hasSeenToolCalls := false } := by
  have hstep := stepContent_tool_unmatched s h1 h2
  refine ⟨hstep, ?_⟩
  rw [hstep, stepContent_prose_break _ h3 rfl h4]

/-- Witness for C10 with an unclosed annotation then plain prose. -/
theorem unmatched_tool_marker_witness :
    stepContent stEmpty "[Calling tool: unclosed".data = ⟨[], [], true⟩
    ∧ stepContent (stepContent stEmpty "[Calling tool: unclosed".data)
        "next".data =
      ⟨[⟨Role.assistant, "next".data, some []⟩], "next".data, false⟩ := by
  have h := unmatched_tool_marker stEmpty "[Calling tool: unclosed".data
    "next".data (by decide) (by decide) (by decide) (by decide)
  simpa [stEmpty] using h

end SimpleChat
